import Mathlib

/-!
Verification of the gosql lexer (lexer source file of the repository).

The source string is modelled as a `List Nat` of byte values; all cursor
arithmetic uses `Nat` (the Go code uses `uint`, and no subtraction in the
source can underflow: every subtraction `a - b` in the source occurs where
`b ≤ a` holds).  Go loops are modelled as structurally recursive functions
on an explicit fuel argument; running out of fuel is a distinguished result
(`fuelOut`), and we prove it is never reached with the fuel the wrappers
supply.  A Go runtime panic (out-of-range string index or slice) is the
distinguished result `panic_`; indexing that the source performs without a
bounds guard is modelled by an explicit bounds test that yields `panic_`
when the guard fails, exactly where the Go runtime would abort.
-/

namespace GoSQL

/-- `Location` from the source: line and column, both starting at 0
(the zero value of the Go struct). -/
structure Location where
  Line : Nat
  Col : Nat
deriving DecidableEq

/-- `cursor` from the source: byte offset plus location. -/
structure cursor where
  pointer : Nat
  loc : Location
deriving DecidableEq

/-- `TokenKind` from the source. -/
inductive TokenKind where
  | KeywordKind
  | SymbolKind
  | IdentifierKind
  | StringKind
  | NumericKind
  | BoolKind
deriving DecidableEq

/-- `Token` from the source.  `Value` is the byte string of the token. -/
structure Token where
  Value : List Nat
  Kind : TokenKind
  Loc : Location
deriving DecidableEq

/-- The data `fmt.Errorf("Unable to lex token%s, at %d %d", hint, cur.loc.Line,
cur.loc.Col)` interpolates into the error of `lex`: the hint (the previous
token's value, when one exists) and the reported line and column. -/
structure LexError where
  hint : Option (List Nat)
  line : Nat
  col : Nat
deriving DecidableEq

/-- Result of one scanner (`lexer` in the source has type
`func(string, cursor) (*Token, cursor, bool)`): `ok tok cur` is a `true`
return (with `tok = none` for the whitespace path that returns a nil token),
`noMatch` is a `false` return (the returned cursor is the unchanged input
cursor, which the driver discards), `panic_` is a Go runtime panic, and
`fuelOut` is exhaustion of the fuel of the loop model. -/
inductive ScanOut where
  | panic_
  | fuelOut
  | noMatch
  | ok (tok : Option Token) (cur : cursor)
deriving DecidableEq

/-- Result of `longestMatch`: the returned string, or a panic / fuel marker. -/
inductive LMRes where
  | panic_
  | fuelOut
  | found (m : List Nat)
deriving DecidableEq

/-- Result of `lex`: the token list, the error, or a panic / fuel marker. -/
inductive LexOut where
  | panic_
  | fuelOut
  | err (e : LexError)
  | ok (toks : List Token)
deriving DecidableEq

/-- Go `source[a:b]` for `a ≤ b ≤ len source` (every use in the source
satisfies these bounds; where the source can violate the slice bounds —
only in `longestMatch` — the panic is modelled explicitly before slicing). -/
def sliceBytes (s : List Nat) (a b : Nat) : List Nat :=
  (s.take b).drop a

/-- ASCII lower-casing of one byte, `A`–`Z` maps to `a`–`z`. -/
def asciiLower (c : Nat) : Nat :=
  if 65 ≤ c ∧ c ≤ 90 then c + 32 else c

/-- The bytes of `strings.ToLower(string(b))` for a single byte `b`:
an ASCII byte is lower-cased in place; a byte `≥ 128` is interpreted by Go
as the Unicode code point of that value, lower-cased (the Latin-1 capitals
U+00C0–U+00D6 and U+00D8–U+00DE map 32 higher) and UTF-8 encoded into two
bytes. -/
def lowerRune (c : Nat) : List Nat :=
  if c < 128 then [asciiLower c]
  else
    let l := if (192 ≤ c ∧ c ≤ 214) ∨ (216 ≤ c ∧ c ≤ 222) then c + 32 else c
    [192 + l / 64, 128 + l % 64]

/-! Keyword and symbol constants from the source (byte strings). -/

/-- `"select"` -/
def SelectKeyword : List Nat := [115, 101, 108, 101, 99, 116]
/-- `"from"` -/
def FromKeyword : List Nat := [102, 114, 111, 109]
/-- `"as"` (declared in the source, not in the active keyword set) -/
def AsKeyword : List Nat := [97, 115]
/-- `"table"` -/
def TableKeyword : List Nat := [116, 97, 98, 108, 101]
/-- `"create"` -/
def CreateKeyword : List Nat := [99, 114, 101, 97, 116, 101]
/-- `"insert"` -/
def InsertKeyword : List Nat := [105, 110, 115, 101, 114, 116]
/-- `"into"` -/
def IntoKeyword : List Nat := [105, 110, 116, 111]
/-- `"values"` -/
def ValuesKeyword : List Nat := [118, 97, 108, 117, 101, 115]
/-- `"int"` (declared in the source, not in the active keyword set) -/
def IntKeyword : List Nat := [105, 110, 116]
/-- `"text"` -/
def TextKeyword : List Nat := [116, 101, 120, 116]
/-- `"where"` -/
def WhereKeyword : List Nat := [119, 104, 101, 114, 101]

/-- `";"` -/
def SemicolonSymbol : List Nat := [59]
/-- `"*"` -/
def AsteriskSymbol : List Nat := [42]
/-- `","` -/
def CommaSymbol : List Nat := [44]
/-- `"("` -/
def LeftParenSymbol : List Nat := [40]
/-- `")"` -/
def RightParenSymbol : List Nat := [41]
/-- `"||"` (declared in the source, not in the active symbol set) -/
def ConcatSymbol : List Nat := [124, 124]

/-- The option list built inside `lexKeyword`, in source order. -/
def keywordOptions : List (List Nat) :=
  [SelectKeyword, InsertKeyword, ValuesKeyword, TableKeyword, CreateKeyword,
   WhereKeyword, FromKeyword, IntoKeyword, TextKeyword]

/-- The option list built inside `lexSymbol`, in source order. -/
def symbolOptions : List (List Nat) :=
  [CommaSymbol, LeftParenSymbol, RightParenSymbol, SemicolonSymbol, AsteriskSymbol]

/-! ## longestMatch -/

/-- The inner `for i, option := range options` loop body of `longestMatch`,
processing the remaining options with `i` the index of the head of `opts`.
`value` is the accumulated lower-cased buffer, `diff` is
`cur.pointer - ic.pointer`, `skipList` and `m` are the loop-carried skip
list and current best match.  The Go expression
`option[:cur.pointer-ic.pointer]` panics when the bound exceeds
`len(option)`; this is the `none` result. -/
def lmInner (value : List Nat) (diff : Nat) :
    Nat → List (List Nat) → List Nat → List Nat → Option (List Nat × List Nat)
  | _, [], skipList, m => some (skipList, m)
  | i, option :: rest, skipList, m =>
    if i ∈ skipList then
      lmInner value diff (i + 1) rest skipList m
    else if option = value then
      lmInner value diff (i + 1) rest (skipList ++ [i])
        (if m.length < option.length then option else m)
    else if option.length < diff then
      none
    else
      let sharesPref := value = option.take diff
      let tooLong := option.length < value.length
      if tooLong ∨ ¬sharesPref then
        lmInner value diff (i + 1) rest (skipList ++ [i]) m
      else
        lmInner value diff (i + 1) rest skipList m

/-- The outer `for cur.pointer < uint(len(source))` loop of `longestMatch`. -/
def lmOuter (source : List Nat) (ic : cursor) (options : List (List Nat)) :
    Nat → cursor → List Nat → List Nat → List Nat → LMRes
  | 0, _, _, _, _ => .fuelOut
  | fuel + 1, cur, value, skipList, m =>
    if h : cur.pointer < source.length then
      let value' := value ++ lowerRune (source.get ⟨cur.pointer, h⟩)
      let cur' : cursor := ⟨cur.pointer + 1, cur.loc⟩
      match lmInner value' (cur'.pointer - ic.pointer) 0 options skipList m with
      | none => .panic_
      | some (skipList', m') =>
        if skipList'.length = options.length then .found m'
        else lmOuter source ic options fuel cur' value' skipList' m'
    else .found m

/-- `longestMatch` from the source: walk the source from `ic`, keeping the
longest option that case-insensitively matches; an option equal to the
accumulated buffer is recorded as the best so far (when longer than the
previous best) and skipped from further rounds, but scanning continues so a
longer option sharing the prefix can still win. -/
def longestMatch (source : List Nat) (ic : cursor) (options : List (List Nat)) : LMRes :=
  lmOuter source ic options (source.length + 1) ic [] [] []

/-! ## lexNumeric -/

/-- End of the `lexNumeric` loop: fail when no character was consumed,
otherwise return the `Numeric` token holding the consumed slice. -/
def lexNumericFinish (source : List Nat) (ic cur : cursor) : ScanOut :=
  if cur.pointer = ic.pointer then .noMatch
  else .ok (some ⟨sliceBytes source ic.pointer cur.pointer, .NumericKind, ic.loc⟩) cur

/-- The `for ; cur.pointer < uint(len(source)); cur.pointer++` loop of
`lexNumeric`.  Note that `cur.loc.Col++` runs before the character is
examined, so the `break` on a non-digit leaves the column already
incremented for the unconsumed terminating character. -/
def lexNumericLoop (source : List Nat) (ic : cursor) :
    Nat → cursor → Bool → Bool → ScanOut
  | 0, _, _, _ => .fuelOut
  | fuel + 1, cur, periodFound, expMarkerFound =>
    if h : cur.pointer < source.length then
      let c := source.get ⟨cur.pointer, h⟩
      let col := cur.loc.Col + 1
      let isDigit : Bool := decide (48 ≤ c ∧ c ≤ 57)
      let isPeriod : Bool := decide (c = 46)
      let isExpMarker : Bool := decide (c = 101)
      if cur.pointer = ic.pointer then
        if ¬isDigit ∧ ¬isPeriod then .noMatch
        else lexNumericLoop source ic fuel ⟨cur.pointer + 1, ⟨cur.loc.Line, col⟩⟩
          isPeriod expMarkerFound
      else if isPeriod then
        if periodFound then .noMatch
        else lexNumericLoop source ic fuel ⟨cur.pointer + 1, ⟨cur.loc.Line, col⟩⟩
          true expMarkerFound
      else if isExpMarker then
        if expMarkerFound then .noMatch
        else if cur.pointer = source.length - 1 then .noMatch
        else if source.getD (cur.pointer + 1) 0 = 45 ∨ source.getD (cur.pointer + 1) 0 = 43 then
          lexNumericLoop source ic fuel ⟨cur.pointer + 2, ⟨cur.loc.Line, col + 1⟩⟩ true true
        else lexNumericLoop source ic fuel ⟨cur.pointer + 1, ⟨cur.loc.Line, col⟩⟩ true true
      else if ¬isDigit then
        lexNumericFinish source ic ⟨cur.pointer, ⟨cur.loc.Line, col⟩⟩
      else lexNumericLoop source ic fuel ⟨cur.pointer + 1, ⟨cur.loc.Line, col⟩⟩
        periodFound expMarkerFound
    else lexNumericFinish source ic cur

/-- `lexNumeric` from the source: the digits / one period / one exponent
marker (with optional immediately following sign) state machine. -/
def lexNumeric (source : List Nat) (ic : cursor) : ScanOut :=
  lexNumericLoop source ic (source.length + 1) ic false false

/-! ## lexCharacterDelimited -/

/-- The scanning loop of `lexCharacterDelimited`.  On the closing delimiter
the token is returned with the cursor still pointing at that delimiter (the
source returns `cur` without advancing past it); a doubled delimiter
appends the delimiter byte in the `else` branch and then falls through to
the unconditional `value = append(value, c)`, appending two bytes while
consuming two. -/
def lexCharDelimLoop (source : List Nat) (ic : cursor) (delimiter : Nat) :
    Nat → cursor → List Nat → ScanOut
  | 0, _, _ => .fuelOut
  | fuel + 1, cur, value =>
    if h : cur.pointer < source.length then
      let c := source.get ⟨cur.pointer, h⟩
      if c = delimiter then
        if source.length ≤ cur.pointer + 1 ∨ source.getD (cur.pointer + 1) 0 ≠ delimiter then
          .ok (some ⟨value, .StringKind, ic.loc⟩) cur
        else
          lexCharDelimLoop source ic delimiter fuel
            ⟨cur.pointer + 2, ⟨cur.loc.Line, cur.loc.Col + 2⟩⟩ (value ++ [delimiter, c])
      else
        lexCharDelimLoop source ic delimiter fuel
          ⟨cur.pointer + 1, ⟨cur.loc.Line, cur.loc.Col + 1⟩⟩ (value ++ [c])
    else .noMatch

/-- `lexCharacterDelimited` from the source.  `len(source[cur.pointer:])`
panics when `cur.pointer > len(source)`; within bounds it is
`source.length - ic.pointer`. -/
def lexCharacterDelimited (source : List Nat) (ic : cursor) (delimiter : Nat) : ScanOut :=
  if source.length < ic.pointer then .panic_
  else if source.length - ic.pointer = 0 then .noMatch
  else if source.getD ic.pointer 0 ≠ delimiter then .noMatch
  else lexCharDelimLoop source ic delimiter (source.length + 1)
    ⟨ic.pointer + 1, ⟨ic.loc.Line, ic.loc.Col + 1⟩⟩ []

/-- `lexString` from the source: character-delimited scan with `'` (39). -/
def lexString (source : List Nat) (ic : cursor) : ScanOut :=
  lexCharacterDelimited source ic 39

/-! ## lexSymbol, lexKeyword, lexIdentifier -/

/-- `lexSymbol` from the source: `source[ic.pointer]` is read with no bounds
guard (panic when out of range); whitespace (newline 10, tab 9, space 32) is
consumed with no token, the newline resetting the column and bumping the
line; otherwise the symbol set goes through `longestMatch`. -/
def lexSymbol (source : List Nat) (ic : cursor) : ScanOut :=
  if h : ic.pointer < source.length then
    let c := source.get ⟨ic.pointer, h⟩
    if c = 10 then .ok none ⟨ic.pointer + 1, ⟨ic.loc.Line + 1, 0⟩⟩
    else if c = 9 ∨ c = 32 then .ok none ⟨ic.pointer + 1, ⟨ic.loc.Line, ic.loc.Col + 1⟩⟩
    else
      match longestMatch source ic symbolOptions with
      | .panic_ => .panic_
      | .fuelOut => .fuelOut
      | .found m =>
        if m = [] then .noMatch
        else .ok (some ⟨m, .SymbolKind, ic.loc⟩)
          ⟨ic.pointer + m.length, ⟨ic.loc.Line, ic.loc.Col + m.length⟩⟩
  else .panic_

/-- `lexKeyword` from the source: the keyword set through `longestMatch`. -/
def lexKeyword (source : List Nat) (ic : cursor) : ScanOut :=
  match longestMatch source ic keywordOptions with
  | .panic_ => .panic_
  | .fuelOut => .fuelOut
  | .found m =>
    if m = [] then .noMatch
    else .ok (some ⟨m, .KeywordKind, ic.loc⟩)
      ⟨ic.pointer + m.length, ⟨ic.loc.Line, ic.loc.Col + m.length⟩⟩

/-- The greedy consumption loop of the bare-identifier path of
`lexIdentifier`: ASCII letters, digits, `$` (36) and `_` (95). -/
def lexIdentLoop (source : List Nat) :
    Nat → cursor → List Nat → ScanOut × cursor × List Nat
  | 0, cur, value => (.fuelOut, cur, value)
  | fuel + 1, cur, value =>
    if h : cur.pointer < source.length then
      let c := source.get ⟨cur.pointer, h⟩
      if (65 ≤ c ∧ c ≤ 90) ∨ (97 ≤ c ∧ c ≤ 122) ∨ (48 ≤ c ∧ c ≤ 57) ∨ c = 36 ∨ c = 95 then
        lexIdentLoop source fuel ⟨cur.pointer + 1, ⟨cur.loc.Line, cur.loc.Col + 1⟩⟩
          (value ++ [c])
      else (.noMatch, cur, value)
    else (.noMatch, cur, value)

/-- `lexIdentifier` from the source: a double-quoted (34) delimited scan is
returned as-is (the token keeps the `String` kind the delimited scan gave
it — there is no relabelling step in the source); otherwise the first byte
is read with no bounds guard and must be an ASCII letter, then the greedy
loop runs and the accumulated (all-ASCII) value is lower-cased
(`strings.ToLower`) into an `Identifier` token. -/
def lexIdentifier (source : List Nat) (ic : cursor) : ScanOut :=
  match lexCharacterDelimited source ic 34 with
  | .ok tok cur => .ok tok cur
  | .panic_ => .panic_
  | .fuelOut => .fuelOut
  | .noMatch =>
    if h : ic.pointer < source.length then
      let c := source.get ⟨ic.pointer, h⟩
      if (65 ≤ c ∧ c ≤ 90) ∨ (97 ≤ c ∧ c ≤ 122) then
        match lexIdentLoop source (source.length + 1)
          ⟨ic.pointer + 1, ⟨ic.loc.Line, ic.loc.Col + 1⟩⟩ [c] with
        | (.fuelOut, _, _) => .fuelOut
        | (_, cur, value) =>
          if value = [] then .noMatch
          else .ok (some ⟨value.map asciiLower, .IdentifierKind, ic.loc⟩) cur
      else .noMatch
    else .panic_

/-! ## The driver -/

/-- One round of the driver's inner `for _, l := range lexers` loop: the
scanners in source order, first success wins, panic and fuel markers
propagate. -/
def tryLexers (source : List Nat) (cur : cursor) : ScanOut :=
  match lexKeyword source cur with
  | .noMatch =>
    match lexSymbol source cur with
    | .noMatch =>
      match lexString source cur with
      | .noMatch =>
        match lexNumeric source cur with
        | .noMatch => lexIdentifier source cur
        | r => r
      | r => r
    | r => r
  | r => r

/-- The `lex` loop: while the pointer is inside the source, run the
scanners; on success install the new cursor and append the token (when not
nil); when every scanner fails, build the error from the last token's value
and the current location. -/
def lexLoop (source : List Nat) : Nat → cursor → List Token → LexOut
  | 0, _, _ => .fuelOut
  | fuel + 1, cur, tokens =>
    if cur.pointer < source.length then
      match tryLexers source cur with
      | .panic_ => .panic_
      | .fuelOut => .fuelOut
      | .ok tok newCursor =>
        lexLoop source fuel newCursor
          (tokens ++ (match tok with | some t => [t] | none => []))
      | .noMatch =>
        .err ⟨(tokens.getLast?).map Token.Value, cur.loc.Line, cur.loc.Col⟩
    else .ok tokens

/-- `lex` from the source: start at pointer 0 with the zero location. -/
def lex (source : List Nat) : LexOut :=
  lexLoop source (source.length + 1) ⟨0, ⟨0, 0⟩⟩ []

/-- The zero value `cursor{}` of the Go struct. -/
def cursor0 : cursor := ⟨0, ⟨0, 0⟩⟩

/-- How a token's value relates to the lexeme (the consumed source slice)
that produced it: `Numeric` values are the lexeme verbatim; `Keyword`,
`Symbol` and bare `Identifier` values are the ASCII-lower-cased lexeme;
a `String`-kind token (produced by the delimited scan, for `'` strings or
`"` identifiers) keeps every consumed byte after the opening delimiter. -/
def lexemeRel (t : Token) (l : List Nat) : Prop :=
  match t.Kind with
  | .KeywordKind => l.map asciiLower = t.Value
  | .SymbolKind => l.map asciiLower = t.Value
  | .IdentifierKind => l.map asciiLower = t.Value
  | .StringKind => l = 39 :: t.Value ∨ l = 34 :: t.Value
  | .NumericKind => l = t.Value
  | .BoolKind => False

/-- A source byte string decomposes over a token list: in order, each piece
is either one whitespace byte (newline 10, tab 9, space 32) contributing no
token, or the lexeme of the next token, related to its value by
`lexemeRel`.  This is the reconstruction statement: reinserting the
whitespace bytes at their original positions between the lexemes rebuilds
the source exactly. -/
inductive Decomp : List Nat → List Token → Prop where
  | nil : Decomp [] []
  | ws {b : Nat} {rest : List Nat} {toks : List Token} :
      b = 10 ∨ b = 9 ∨ b = 32 → Decomp rest toks → Decomp (b :: rest) toks
  | tok {t : Token} {l rest : List Nat} {toks : List Token} :
      lexemeRel t l → l ≠ [] → Decomp rest toks → Decomp (l ++ rest) (t :: toks)

end GoSQL

namespace GoSQL

/-! ## Basic lemmas about bytes and slices -/

theorem lowerRune_length (c : Nat) : 1 ≤ (lowerRune c).length := by
  unfold lowerRune
  split <;> simp

theorem flatMap_lowerRune_length (bs : List Nat) :
    bs.length ≤ (bs.flatMap lowerRune).length := by
  induction bs with
  | nil => simp
  | cons b bs ih =>
    have h := lowerRune_length b
    rw [List.flatMap_cons]
    simp only [List.length_append, List.length_cons]
    omega

theorem flatMap_lowerRune_ascii (bs : List Nat)
    (h : ∀ x ∈ bs.flatMap lowerRune, x < 128) :
    bs.map asciiLower = bs.flatMap lowerRune := by
  induction bs with
  | nil => simp
  | cons b bs ih =>
    by_cases hb : b < 128
    · have hlr : lowerRune b = [asciiLower b] := by simp [lowerRune, hb]
      rw [List.flatMap_cons, hlr, List.map_cons, List.singleton_append]
      have := ih (fun x hx => h x (by rw [List.flatMap_cons]; exact List.mem_append_right _ hx))
      rw [this]
    · exfalso
      have hmem : (192 + (if (192 ≤ b ∧ b ≤ 214) ∨ (216 ≤ b ∧ b ≤ 222) then b + 32 else b) / 64)
          ∈ (b :: bs).flatMap lowerRune := by
        rw [List.flatMap_cons]
        apply List.mem_append_left
        simp [lowerRune, hb]
      have := h _ hmem
      omega

theorem slice_nil (s : List Nat) (a : Nat) : sliceBytes s a a = [] := by
  apply List.drop_eq_nil_of_le
  simp [List.length_take]

theorem slice_len (s : List Nat) {a b : Nat} (h1 : a ≤ b) (h2 : b ≤ s.length) :
    (sliceBytes s a b).length = b - a := by
  simp only [sliceBytes, List.length_drop, List.length_take]
  omega

theorem slice_cons (s : List Nat) {a b : Nat} (h1 : a < s.length) (h2 : a < b) :
    sliceBytes s a b = s.get ⟨a, h1⟩ :: sliceBytes s (a + 1) b := by
  have hlen : a < (s.take b).length := by
    simp only [List.length_take]; omega
  have hd := List.drop_eq_getElem_cons (l := s.take b) hlen
  rw [sliceBytes, hd, List.getElem_take]
  rfl

theorem slice_snoc (s : List Nat) {a b : Nat} (h1 : a ≤ b) (h2 : b < s.length) :
    sliceBytes s a (b + 1) = sliceBytes s a b ++ [s.get ⟨b, h2⟩] := by
  have htake : s.take (b + 1) = s.take b ++ [s.get ⟨b, h2⟩] := by
    rw [List.take_succ]
    congr 1
    rw [List.getElem?_eq_getElem h2]
    rfl
  have hlen : a ≤ (s.take b).length := by
    simp only [List.length_take]; omega
  rw [sliceBytes, htake, List.drop_append_of_le_length hlen]
  rfl

theorem slice_append (s : List Nat) {a b c : Nat} (h1 : a ≤ b) (h2 : b ≤ c)
    (h3 : c ≤ s.length) :
    sliceBytes s a c = sliceBytes s a b ++ sliceBytes s b c := by
  have htake : s.take c = s.take b ++ sliceBytes s b c := by
    conv_lhs => rw [← List.take_append_drop b (s.take c)]
    congr 1
    rw [List.take_take]
    congr 1
    omega
  have hlen : a ≤ (s.take b).length := by
    simp only [List.length_take]
    omega
  rw [sliceBytes, htake, List.drop_append_of_le_length hlen]
  rfl

theorem drop_eq_slice_append (s : List Nat) {a b : Nat} (h1 : a ≤ b) (h2 : b ≤ s.length) :
    s.drop a = sliceBytes s a b ++ s.drop b := by
  conv_lhs => rw [← List.take_append_drop b s]
  have hlen : a ≤ (s.take b).length := by
    simp only [List.length_take]; omega
  rw [List.drop_append_of_le_length hlen]
  rfl

theorem getD_eq_get (s : List Nat) {i : Nat} (h : i < s.length) :
    s.getD i 0 = s.get ⟨i, h⟩ := by
  rw [List.getD_eq_getElem s 0 h]
  rfl

/-! ## lexNumeric: loop invariant -/

theorem lexNumericLoop_spec (source : List Nat) (ic : cursor) :
    ∀ (fuel : Nat) (cur : cursor) (pf ef : Bool) (r : ScanOut),
      lexNumericLoop source ic fuel cur pf ef = r →
      ic.pointer ≤ cur.pointer → cur.pointer ≤ source.length →
      cur.loc.Line = ic.loc.Line →
      cur.loc.Col = ic.loc.Col + (cur.pointer - ic.pointer) →
      source.length < fuel + cur.pointer →
      r ≠ .panic_ ∧ r ≠ .fuelOut ∧
      ∀ tok c', r = .ok tok c' →
        tok = some ⟨sliceBytes source ic.pointer c'.pointer, .NumericKind, ic.loc⟩ ∧
        ic.pointer < c'.pointer ∧ c'.pointer ≤ source.length ∧
        c'.loc.Line = ic.loc.Line ∧
        (c'.pointer = source.length → c'.loc.Col = ic.loc.Col + (c'.pointer - ic.pointer)) ∧
        (c'.pointer < source.length →
          c'.loc.Col = ic.loc.Col + (c'.pointer - ic.pointer) + 1) := by
  intro fuel
  induction fuel with
  | zero => intro cur pf ef r hr h1 h2 h3 h4 h5; omega
  | succ fuel ih =>
    intro cur pf ef r hr h1 h2 h3 h4 h5
    rw [lexNumericLoop] at hr
    by_cases hg : cur.pointer < source.length
    · rw [dif_pos hg] at hr
      dsimp only at hr
      split at hr
      · -- first character
        split at hr
        · subst hr
          refine ⟨by simp, by simp, ?_⟩
          intro tok c' h
          simp at h
        · exact ih _ _ _ r hr (by dsimp only; omega) (by dsimp only; omega) (by simpa using h3)
            (by dsimp only; omega) (by dsimp only; omega)
      · split at hr
        · -- period
          split at hr
          · subst hr
            refine ⟨by simp, by simp, ?_⟩
            intro tok c' h
            simp at h
          · exact ih _ _ _ r hr (by dsimp only; omega) (by dsimp only; omega)
              (by simpa using h3) (by dsimp only; omega) (by dsimp only; omega)
        · split at hr
          · -- exponent marker
            split at hr
            · subst hr
              refine ⟨by simp, by simp, ?_⟩
              intro tok c' h
              simp at h
            · rename_i hlast
              split at hr
              · subst hr
                refine ⟨by simp, by simp, ?_⟩
                intro tok c' h
                simp at h
              · split at hr
                · -- sign after exponent marker: two bytes consumed
                  exact ih _ _ _ r hr (by dsimp only; omega) (by dsimp only; omega)
                    (by simpa using h3) (by dsimp only; omega) (by dsimp only; omega)
                · exact ih _ _ _ r hr (by dsimp only; omega) (by dsimp only; omega)
                    (by simpa using h3) (by dsimp only; omega) (by dsimp only; omega)
          · split at hr
            · -- non-digit: break, column already counted for the terminator
              rw [lexNumericFinish] at hr
              split at hr
              · subst hr
                refine ⟨by simp, by simp, ?_⟩
                intro tok c' h
                simp at h
              · rename_i hne
                subst hr
                refine ⟨by simp, by simp, ?_⟩
                intro tok c' h
                rw [ScanOut.ok.injEq] at h
                obtain ⟨htok, hc⟩ := h
                subst hc
                refine ⟨htok.symm, by simp at hne ⊢; omega, by simp; omega,
                  by simpa using h3, ?_, ?_⟩
                · intro hend
                  simp at hend
                  omega
                · intro _
                  simp
                  omega
            · -- digit: continue
              exact ih _ _ _ r hr (by dsimp only; omega) (by dsimp only; omega)
                (by simpa using h3) (by dsimp only; omega) (by dsimp only; omega)
    · rw [dif_neg hg] at hr
      rw [lexNumericFinish] at hr
      split at hr
      · subst hr
        refine ⟨by simp, by simp, ?_⟩
        intro tok c' h
        simp at h
      · rename_i hne
        subst hr
        refine ⟨by simp, by simp, ?_⟩
        intro tok c' h
        rw [ScanOut.ok.injEq] at h
        obtain ⟨htok, hc⟩ := h
        subst hc
        refine ⟨htok.symm, by omega, h2, h3, fun _ => h4, ?_⟩
        intro hlt
        omega

/-- `lexNumeric` master lemma: on success the token is the consumed slice
verbatim, the pointer strictly advances and stays in bounds, the line is
untouched, and the returned column is start + consumed bytes, plus one
when the scan stopped at an unconsumed terminating character (returned
pointer still inside the source); no panic, no fuel exhaustion. -/
theorem lexNumeric_spec (source : List Nat) (ic : cursor) :
    lexNumeric source ic ≠ .panic_ ∧ lexNumeric source ic ≠ .fuelOut ∧
    ∀ tok c', lexNumeric source ic = .ok tok c' →
      tok = some ⟨sliceBytes source ic.pointer c'.pointer, .NumericKind, ic.loc⟩ ∧
      ic.pointer < c'.pointer ∧ c'.pointer ≤ source.length ∧
      c'.loc.Line = ic.loc.Line ∧
      (c'.pointer = source.length → c'.loc.Col = ic.loc.Col + (c'.pointer - ic.pointer)) ∧
      (c'.pointer < source.length →
        c'.loc.Col = ic.loc.Col + (c'.pointer - ic.pointer) + 1) := by
  by_cases hlen : ic.pointer ≤ source.length
  · exact lexNumericLoop_spec source ic (source.length + 1) ic false false
      (lexNumeric source ic) rfl (le_refl _) hlen rfl (by omega) (by omega)
  · have : lexNumeric source ic = .noMatch := by
      rw [lexNumeric, lexNumericLoop, dif_neg (by omega), lexNumericFinish, if_pos rfl]
    rw [this]
    refine ⟨by simp, by simp, ?_⟩
    intro tok c' h
    simp at h

/-! ## lexCharacterDelimited: loop invariant -/

theorem lexCharDelimLoop_spec (source : List Nat) (ic : cursor) (delimiter : Nat) :
    ∀ (fuel : Nat) (cur : cursor) (value : List Nat) (r : ScanOut),
      lexCharDelimLoop source ic delimiter fuel cur value = r →
      cur.pointer ≤ source.length →
      source.length < fuel + cur.pointer →
      r ≠ .panic_ ∧ r ≠ .fuelOut ∧
      ∀ tok c', r = .ok tok c' →
        tok = some ⟨value ++ sliceBytes source cur.pointer c'.pointer, .StringKind, ic.loc⟩ ∧
        cur.pointer ≤ c'.pointer ∧ c'.pointer < source.length ∧
        c'.loc.Line = cur.loc.Line ∧
        c'.loc.Col = cur.loc.Col + (c'.pointer - cur.pointer) := by
  intro fuel
  induction fuel with
  | zero => intro cur value r hr h1 h2; omega
  | succ fuel ih =>
    intro cur value r hr h1 h2
    rw [lexCharDelimLoop] at hr
    by_cases hg : cur.pointer < source.length
    · rw [dif_pos hg] at hr
      dsimp only at hr
      split at hr
      · rename_i hdelim
        split at hr
        · -- closing delimiter: return with the cursor still on it
          subst hr
          refine ⟨by simp, by simp, ?_⟩
          intro tok c' h
          rw [ScanOut.ok.injEq] at h
          obtain ⟨htok, hc⟩ := h
          subst hc
          refine ⟨?_, le_refl _, hg, rfl, by omega⟩
          rw [← htok, slice_nil, List.append_nil]
        · -- doubled delimiter: both bytes consumed, both bytes appended
          rename_i hclose
          push_neg at hclose
          obtain ⟨hlt1, heqd⟩ := hclose
          have hlt1' : cur.pointer + 1 < source.length := by omega
          obtain ⟨hp, hf, hok⟩ := ih _ _ r hr (by dsimp only; omega) (by dsimp only; omega)
          refine ⟨hp, hf, ?_⟩
          intro tok c' h
          obtain ⟨htok, hle, hlt, hline, hcol⟩ := hok tok c' h
          dsimp only at htok hle hlt hline hcol
          refine ⟨?_, by omega, hlt, hline, by omega⟩
          rw [htok]
          have hs1 : sliceBytes source cur.pointer c'.pointer =
              source.get ⟨cur.pointer, hg⟩ :: sliceBytes source (cur.pointer + 1) c'.pointer :=
            slice_cons source hg (by omega)
          have hs2 : sliceBytes source (cur.pointer + 1) c'.pointer =
              source.get ⟨cur.pointer + 1, hlt1'⟩ :: sliceBytes source (cur.pointer + 2) c'.pointer :=
            slice_cons source hlt1' (by omega)
          have hget1 : source.get ⟨cur.pointer + 1, hlt1'⟩ = delimiter := by
            rw [← getD_eq_get source hlt1', heqd]
          rw [hs1, hs2, hget1, hdelim]
          simp
      · -- ordinary byte: consumed and appended
        rename_i hdelim
        obtain ⟨hp, hf, hok⟩ := ih _ _ r hr (by dsimp only; omega) (by dsimp only; omega)
        refine ⟨hp, hf, ?_⟩
        intro tok c' h
        obtain ⟨htok, hle, hlt, hline, hcol⟩ := hok tok c' h
        dsimp only at htok hle hlt hline hcol
        refine ⟨?_, by omega, hlt, hline, by omega⟩
        rw [htok]
        have hs1 : sliceBytes source cur.pointer c'.pointer =
            source.get ⟨cur.pointer, hg⟩ :: sliceBytes source (cur.pointer + 1) c'.pointer :=
          slice_cons source hg (by omega)
        rw [hs1]
        simp
    · rw [dif_neg hg] at hr
      subst hr
      refine ⟨by simp, by simp, ?_⟩
      intro tok c' h
      simp at h

/-- `lexCharacterDelimited` master lemma: it panics only when the cursor is
past the end of the source; it never exhausts fuel; and on success the
opening byte was the delimiter, the token value is every consumed byte
after the opening delimiter, the cursor strictly advanced but still points
inside the source (at the closing delimiter, which is not consumed), the
line is untouched and the column advanced by exactly the consumed bytes. -/
theorem lexCharacterDelimited_spec (source : List Nat) (ic : cursor) (delimiter : Nat) :
    (ic.pointer ≤ source.length → lexCharacterDelimited source ic delimiter ≠ .panic_) ∧
    lexCharacterDelimited source ic delimiter ≠ .fuelOut ∧
    ∀ tok c', lexCharacterDelimited source ic delimiter = .ok tok c' →
      ic.pointer < source.length ∧
      source.getD ic.pointer 0 = delimiter ∧
      tok = some ⟨sliceBytes source (ic.pointer + 1) c'.pointer, .StringKind, ic.loc⟩ ∧
      ic.pointer < c'.pointer ∧ c'.pointer < source.length ∧
      c'.loc.Line = ic.loc.Line ∧
      c'.loc.Col = ic.loc.Col + (c'.pointer - ic.pointer) := by
  rw [lexCharacterDelimited]
  by_cases hpast : source.length < ic.pointer
  · rw [if_pos hpast]
    refine ⟨fun hle => by omega, by simp, ?_⟩
    intro tok c' h
    simp at h
  · rw [if_neg hpast]
    by_cases hempty : source.length - ic.pointer = 0
    · rw [if_pos hempty]
      refine ⟨fun _ => by simp, by simp, ?_⟩
      intro tok c' h
      simp at h
    · rw [if_neg hempty]
      by_cases hdelim : source.getD ic.pointer 0 ≠ delimiter
      · rw [if_pos hdelim]
        refine ⟨fun _ => by simp, by simp, ?_⟩
        intro tok c' h
        simp at h
      · rw [if_neg hdelim]
        push_neg at hdelim
        have hic : ic.pointer < source.length := by omega
        obtain ⟨hp, hf, hok⟩ := lexCharDelimLoop_spec source ic delimiter (source.length + 1)
          ⟨ic.pointer + 1, ⟨ic.loc.Line, ic.loc.Col + 1⟩⟩ []
          (lexCharDelimLoop source ic delimiter (source.length + 1)
            ⟨ic.pointer + 1, ⟨ic.loc.Line, ic.loc.Col + 1⟩⟩ []) rfl
          (by dsimp only; omega) (by dsimp only; omega)
        refine ⟨fun _ => hp, hf, ?_⟩
        intro tok c' h
        obtain ⟨htok, hle, hlt, hline, hcol⟩ := hok tok c' h
        dsimp only at htok hle hlt hline hcol
        rw [List.nil_append] at htok
        exact ⟨hic, hdelim, htok, by omega, hlt, hline, by omega⟩

/-! ## lexIdentifier: loop invariant -/

theorem lexIdentLoop_spec (source : List Nat) :
    ∀ (fuel : Nat) (cur : cursor) (value : List Nat) (r : ScanOut) (c' : cursor)
      (value' : List Nat),
      lexIdentLoop source fuel cur value = (r, c', value') →
      cur.pointer ≤ source.length →
      source.length < fuel + cur.pointer →
      r = .noMatch ∧
      value' = value ++ sliceBytes source cur.pointer c'.pointer ∧
      cur.pointer ≤ c'.pointer ∧ c'.pointer ≤ source.length ∧
      c'.loc.Line = cur.loc.Line ∧
      c'.loc.Col = cur.loc.Col + (c'.pointer - cur.pointer) := by
  intro fuel
  induction fuel with
  | zero => intro cur value r c' value' hr h1 h2; omega
  | succ fuel ih =>
    intro cur value r c' value' hr h1 h2
    rw [lexIdentLoop] at hr
    by_cases hg : cur.pointer < source.length
    · rw [dif_pos hg] at hr
      dsimp only at hr
      split at hr
      · -- identifier byte: consumed and appended
        obtain ⟨hrn, hval, hle, hlen, hline, hcol⟩ :=
          ih _ _ r c' value' hr (by dsimp only; omega) (by dsimp only; omega)
        dsimp only at hval hle hlen hline hcol
        refine ⟨hrn, ?_, by omega, hlen, hline, by omega⟩
        rw [hval]
        have hs1 : sliceBytes source cur.pointer c'.pointer =
            source.get ⟨cur.pointer, hg⟩ :: sliceBytes source (cur.pointer + 1) c'.pointer :=
          slice_cons source hg (by omega)
        rw [hs1]
        simp
      · -- non-identifier byte: stop before it
        rw [Prod.mk.injEq, Prod.mk.injEq] at hr
        obtain ⟨hrn, hc, hval⟩ := hr
        subst hc
        subst hval
        exact ⟨hrn.symm, by rw [slice_nil, List.append_nil], le_refl _, by omega, rfl, by omega⟩
    · rw [dif_neg hg] at hr
      rw [Prod.mk.injEq, Prod.mk.injEq] at hr
      obtain ⟨hrn, hc, hval⟩ := hr
      subst hc
      subst hval
      exact ⟨hrn.symm, by rw [slice_nil, List.append_nil], le_refl _, h1, rfl, by omega⟩

/-- `lexIdentifier` master lemma: it panics only when the cursor is at or
past the end of the source; it never exhausts fuel; and on success the
pointer strictly advances within bounds and the token is either the
delimited (double-quote) scan's token — still of `String` kind, value the
consumed bytes after the opening quote, cursor left on the closing quote —
or a bare identifier whose value is the ASCII-lower-cased consumed slice;
either way the line is untouched and the column advances by the consumed
byte count. -/
theorem lexIdentifier_spec (source : List Nat) (ic : cursor) :
    (ic.pointer < source.length → lexIdentifier source ic ≠ .panic_) ∧
    lexIdentifier source ic ≠ .fuelOut ∧
    ∀ tok c', lexIdentifier source ic = .ok tok c' →
      ic.pointer < c'.pointer ∧ c'.pointer ≤ source.length ∧
      c'.loc.Line = ic.loc.Line ∧ c'.loc.Col = ic.loc.Col + (c'.pointer - ic.pointer) ∧
      ∃ t, tok = some t ∧ t.Loc = ic.loc ∧
        ((t.Kind = .StringKind ∧ source.getD ic.pointer 0 = 34 ∧
          t.Value = sliceBytes source (ic.pointer + 1) c'.pointer ∧
          c'.pointer < source.length) ∨
         (t.Kind = .IdentifierKind ∧
          t.Value = (sliceBytes source ic.pointer c'.pointer).map asciiLower)) := by
  obtain ⟨hdp, hdf, hdok⟩ := lexCharacterDelimited_spec source ic 34
  rcases hdel : lexCharacterDelimited source ic 34 with _ | _ | _ | ⟨tok0, cur0⟩
  · rw [lexIdentifier, hdel]
    refine ⟨fun hlt => absurd hdel (hdp (le_of_lt hlt)), by simp, ?_⟩
    intro tok c' h
    simp at h
  · exact absurd hdel hdf
  · -- delimited scan found no double-quoted form: bare-identifier path
    rw [lexIdentifier, hdel]
    by_cases hg : ic.pointer < source.length
    · rw [dif_pos hg]
      dsimp only
      split
      · rcases hloop : lexIdentLoop source (source.length + 1)
          ⟨ic.pointer + 1, ⟨ic.loc.Line, ic.loc.Col + 1⟩⟩ [source.get ⟨ic.pointer, hg⟩] with
          ⟨r, c'', value''⟩
        obtain ⟨hrn, hval, hle, hlen, hline, hcol⟩ := lexIdentLoop_spec source _ _ _ _ _ _
          hloop (by dsimp only; omega) (by dsimp only; omega)
        dsimp only at hval hle hlen hline hcol
        subst hrn
        have hvne : value'' ≠ [] := by
          rw [hval]
          simp
        dsimp only
        rw [if_neg hvne]
        refine ⟨by simp, by simp, ?_⟩
        intro tok c' h
        rw [ScanOut.ok.injEq] at h
        obtain ⟨htok, hc⟩ := h
        subst hc
        refine ⟨by omega, hlen, hline, by omega, ⟨_, htok.symm, rfl, ?_⟩⟩
        right
        refine ⟨rfl, ?_⟩
        have hs1 : sliceBytes source ic.pointer c''.pointer =
            source.get ⟨ic.pointer, hg⟩ :: sliceBytes source (ic.pointer + 1) c''.pointer :=
          slice_cons source hg (by omega)
        rw [hs1, hval]
        simp
      · refine ⟨by simp, by simp, ?_⟩
        intro tok c' h
        simp at h
    · rw [dif_neg hg]
      refine ⟨fun hlt => absurd hlt hg, by simp, ?_⟩
      intro tok c' h
      simp at h
  · -- double-quoted path: the delimited token is returned unchanged
    rw [lexIdentifier, hdel]
    obtain ⟨hic, hd34, htok0, hlt0, hlt0', hline0, hcol0⟩ := hdok tok0 cur0 hdel
    refine ⟨by simp, by simp, ?_⟩
    intro tok c' h
    rw [ScanOut.ok.injEq] at h
    obtain ⟨htok, hc⟩ := h
    subst htok
    subst hc
    subst htok0
    exact ⟨hlt0, by omega, hline0, hcol0, _, rfl, rfl, Or.inl ⟨rfl, hd34, rfl, hlt0'⟩⟩

/-! ## longestMatch: invariants

The key safety fact: an option index still outside the skip list after the
round with bound `diff` has length at least `diff + 1`, so the slice
`option[:diff]` of the next round is in bounds and never panics, and an
option that exactly equals the buffer is skipped (and recorded) rather
than scanned further. -/

theorem lmInner_spec (value : List Nat) (diff : Nat) :
    ∀ (opts : List (List Nat)) (i : Nat) (skipList m : List Nat),
      (∀ (k : Nat) (hk : k < opts.length), (i + k) ∉ skipList →
        diff ≤ (opts.get ⟨k, hk⟩).length) →
      diff ≤ value.length →
      ∃ sk' m', lmInner value diff i opts skipList m = some (sk', m') ∧
        (∀ j, j ∈ skipList → j ∈ sk') ∧
        (∀ (k : Nat) (hk : k < opts.length), (i + k) ∉ sk' →
          value = (opts.get ⟨k, hk⟩).take diff ∧ value ≠ opts.get ⟨k, hk⟩ ∧
          value.length ≤ (opts.get ⟨k, hk⟩).length) ∧
        (m' = m ∨ (m' ∈ opts ∧ m' = value)) := by
  intro opts
  induction opts with
  | nil =>
    intro i skipList m h1 h2
    refine ⟨skipList, m, by rw [lmInner], fun j hj => hj, ?_, Or.inl rfl⟩
    intro k hk
    simp at hk
  | cons option rest ih =>
    intro i skipList m h1 h2
    have h1rest : ∀ (sk2 : List Nat), (∀ j, j ∈ skipList → j ∈ sk2) →
        (∀ (k : Nat) (hk : k < rest.length), (i + 1 + k) ∉ sk2 →
          diff ≤ (rest.get ⟨k, hk⟩).length) := by
      intro sk2 hsub k hk hnk
      have hshift : i + (k + 1) = i + 1 + k := by omega
      have hn : (i + (k + 1)) ∉ skipList := by
        rw [hshift]
        exact fun hmem => hnk (hsub _ hmem)
      have := h1 (k + 1) (by simpa using Nat.succ_lt_succ hk) hn
      simpa using this
    rw [lmInner]
    by_cases hskip : i ∈ skipList
    · rw [if_pos hskip]
      obtain ⟨sk', m', heq, hsub, hpost, hm⟩ :=
        ih (i + 1) skipList m (h1rest skipList (fun j hj => hj)) h2
      refine ⟨sk', m', heq, hsub, ?_, ?_⟩
      · intro k hk hnk
        match k with
        | 0 => exact absurd (hsub i hskip) (by simpa using hnk)
        | k + 1 =>
          have hshift : i + (k + 1) = i + 1 + k := by omega
          have := hpost k (by simpa using hk) (by rw [← hshift]; exact hnk)
          simpa using this
      · rcases hm with hm | ⟨hmem, hval⟩
        · exact Or.inl hm
        · exact Or.inr ⟨List.mem_cons_of_mem _ hmem, hval⟩
    · rw [if_neg hskip]
      by_cases heqv : option = value
      · rw [if_pos heqv]
        obtain ⟨sk', m', heq, hsub, hpost, hm⟩ :=
          ih (i + 1) (skipList ++ [i]) (if m.length < option.length then option else m)
            (h1rest (skipList ++ [i]) (fun j hj => List.mem_append_left _ hj)) h2
        refine ⟨sk', m', heq, fun j hj => hsub j (List.mem_append_left _ hj), ?_, ?_⟩
        · intro k hk hnk
          match k with
          | 0 =>
            exact absurd (hsub i (List.mem_append_right _ (List.mem_singleton_self i)))
              (by simpa using hnk)
          | k + 1 =>
            have hshift : i + (k + 1) = i + 1 + k := by omega
            have := hpost k (by simpa using hk) (by rw [← hshift]; exact hnk)
            simpa using this
        · rcases hm with hm | ⟨hmem, hval⟩
          · by_cases hlen : m.length < option.length
            · rw [if_pos hlen] at hm
              exact Or.inr ⟨hm ▸ List.mem_cons_self _ _, hm ▸ heqv⟩
            · rw [if_neg hlen] at hm
              exact Or.inl hm
          · exact Or.inr ⟨List.mem_cons_of_mem _ hmem, hval⟩
      · rw [if_neg heqv]
        have hdiff : diff ≤ option.length := by
          have := h1 0 (by simp) (by simpa using hskip)
          simpa using this
        rw [if_neg (by omega)]
        dsimp only
        by_cases helim : option.length < value.length ∨ ¬value = option.take diff
        · rw [if_pos helim]
          obtain ⟨sk', m', heq, hsub, hpost, hm⟩ :=
            ih (i + 1) (skipList ++ [i]) m
              (h1rest (skipList ++ [i]) (fun j hj => List.mem_append_left _ hj)) h2
          refine ⟨sk', m', heq, fun j hj => hsub j (List.mem_append_left _ hj), ?_, ?_⟩
          · intro k hk hnk
            match k with
            | 0 =>
              exact absurd (hsub i (List.mem_append_right _ (List.mem_singleton_self i)))
                (by simpa using hnk)
            | k + 1 =>
              have hshift : i + (k + 1) = i + 1 + k := by omega
              have := hpost k (by simpa using hk) (by rw [← hshift]; exact hnk)
              simpa using this
          · rcases hm with hm | ⟨hmem, hval⟩
            · exact Or.inl hm
            · exact Or.inr ⟨List.mem_cons_of_mem _ hmem, hval⟩
        · rw [if_neg helim]
          push_neg at helim
          obtain ⟨hnotlong, hpref⟩ := helim
          obtain ⟨sk', m', heq, hsub, hpost, hm⟩ :=
            ih (i + 1) skipList m (h1rest skipList (fun j hj => hj)) h2
          refine ⟨sk', m', heq, hsub, ?_, ?_⟩
          · intro k hk hnk
            match k with
            | 0 =>
              refine ⟨by simpa using hpref, by simpa using Ne.symm heqv, by simpa using hnotlong⟩
            | k + 1 =>
              have hshift : i + (k + 1) = i + 1 + k := by omega
              have := hpost k (by simpa using hk) (by rw [← hshift]; exact hnk)
              simpa using this
          · rcases hm with hm | ⟨hmem, hval⟩
            · exact Or.inl hm
            · exact Or.inr ⟨List.mem_cons_of_mem _ hmem, hval⟩

theorem lmOuter_spec (source : List Nat) (ic : cursor) (options : List (List Nat)) :
    ∀ (fuel : Nat) (cur : cursor) (value skipList m : List Nat),
      ic.pointer ≤ cur.pointer → cur.pointer ≤ source.length →
      value = (sliceBytes source ic.pointer cur.pointer).flatMap lowerRune →
      (∀ (k : Nat) (hk : k < options.length), k ∉ skipList →
        (cur.pointer - ic.pointer) + 1 ≤ (options.get ⟨k, hk⟩).length) →
      (m = [] ∨ (m ∈ options ∧ ∃ j, ic.pointer + j ≤ source.length ∧
        m = (sliceBytes source ic.pointer (ic.pointer + j)).flatMap lowerRune)) →
      source.length < fuel + cur.pointer →
      ∃ m', lmOuter source ic options fuel cur value skipList m = .found m' ∧
        (m' = [] ∨ (m' ∈ options ∧ ∃ j, ic.pointer + j ≤ source.length ∧
          m' = (sliceBytes source ic.pointer (ic.pointer + j)).flatMap lowerRune)) := by
  intro fuel
  induction fuel with
  | zero => intro cur value skipList m g1 g2 g3 g4 g5 g6; omega
  | succ fuel ih =>
    intro cur value skipList m g1 g2 g3 g4 g5 g6
    rw [lmOuter]
    by_cases hg : cur.pointer < source.length
    · rw [dif_pos hg]
      dsimp only
      have hval' : value ++ lowerRune (source.get ⟨cur.pointer, hg⟩) =
          (sliceBytes source ic.pointer (cur.pointer + 1)).flatMap lowerRune := by
        rw [slice_snoc source g1 hg, List.flatMap_append, ← g3]
        simp
      have hdiff : (cur.pointer + 1) - ic.pointer = (cur.pointer - ic.pointer) + 1 := by
        omega
      have hvlen : (cur.pointer + 1) - ic.pointer ≤
          (value ++ lowerRune (source.get ⟨cur.pointer, hg⟩)).length := by
        have hv1 : (sliceBytes source ic.pointer cur.pointer).length =
            cur.pointer - ic.pointer := slice_len source g1 g2
        have hv2 := flatMap_lowerRune_length (sliceBytes source ic.pointer cur.pointer)
        have hv3 := lowerRune_length (source.get ⟨cur.pointer, hg⟩)
        rw [List.length_append, ← g3] at *
        omega
      obtain ⟨sk', m', heq, hsub, hpost, hm⟩ :=
        lmInner_spec (value ++ lowerRune (source.get ⟨cur.pointer, hg⟩))
          ((cur.pointer + 1) - ic.pointer) options 0 skipList m
          (by
            intro k hk hnk
            rw [hdiff]
            exact g4 k hk (by simpa using hnk))
          hvlen
      rw [heq]
      dsimp only
      have hmnew : ∀ m2, m2 = m ∨
            (m2 ∈ options ∧ m2 = value ++ lowerRune (source.get ⟨cur.pointer, hg⟩)) →
          (m2 = [] ∨ (m2 ∈ options ∧ ∃ j, ic.pointer + j ≤ source.length ∧
            m2 = (sliceBytes source ic.pointer (ic.pointer + j)).flatMap lowerRune)) := by
        intro m2 hm2
        rcases hm2 with hm2 | ⟨hmem, hval2⟩
        · rw [hm2]
          exact g5
        · refine Or.inr ⟨hmem, (cur.pointer + 1) - ic.pointer, ?_, ?_⟩
          · omega
          · have : ic.pointer + ((cur.pointer + 1) - ic.pointer) = cur.pointer + 1 := by
              omega
            rw [this, hval2, hval']
      by_cases hfull : sk'.length = options.length
      · rw [if_pos hfull]
        exact ⟨m', rfl, hmnew m' hm⟩
      · rw [if_neg hfull]
        refine ih ⟨cur.pointer + 1, cur.loc⟩ _ sk' m' (by dsimp only; omega)
          (by dsimp only; omega) (by dsimp only; exact hval'.symm ▸ rfl) ?_ (hmnew m' hm)
          (by dsimp only; omega)
        intro k hk hnk
        obtain ⟨hpref, hne, hlen⟩ := hpost k hk (by simpa using hnk)
        dsimp only
        by_cases hle : (options.get ⟨k, hk⟩).length ≤ (cur.pointer + 1) - ic.pointer
        · exfalso
          rw [List.take_of_length_le hle] at hpref
          exact hne hpref
        · omega
    · rw [dif_neg hg]
      exact ⟨m, rfl, g5⟩

/-- `longestMatch` master lemma: with a set of nonempty options it never
panics (the prefix slice of a live option is always in bounds) and never
exhausts fuel, and the returned string is empty or one of the options that
equals the lower-cased buffer accumulated over some consumed prefix. -/
theorem longestMatch_spec (source : List Nat) (ic : cursor) (options : List (List Nat))
    (hne : ∀ o ∈ options, o ≠ []) :
    ∃ m', longestMatch source ic options = .found m' ∧
      (m' = [] ∨ (m' ∈ options ∧ ∃ j, ic.pointer + j ≤ source.length ∧
        m' = (sliceBytes source ic.pointer (ic.pointer + j)).flatMap lowerRune)) := by
  by_cases hic : ic.pointer ≤ source.length
  · refine lmOuter_spec source ic options (source.length + 1) ic [] [] []
      (le_refl _) hic (by rw [slice_nil]; simp) ?_ (Or.inl rfl) (by omega)
    intro k hk hnk
    have := hne (options.get ⟨k, hk⟩) (List.get_mem options k hk)
    have := List.length_pos.mpr this
    omega
  · refine ⟨[], ?_, Or.inl rfl⟩
    rw [longestMatch, lmOuter, dif_neg (by omega)]

/-- `longestMatch` with nonempty all-ASCII options: the returned string,
when nonempty, is an option and equals the ASCII-lower-cased source slice
of its own length starting at the cursor. -/
theorem longestMatch_ascii_spec (source : List Nat) (ic : cursor) (options : List (List Nat))
    (hne : ∀ o ∈ options, o ≠ []) (hascii : ∀ o ∈ options, ∀ b ∈ o, b < 128) :
    ∃ m', longestMatch source ic options = .found m' ∧
      (m' = [] ∨ (m' ∈ options ∧ ic.pointer + m'.length ≤ source.length ∧
        (sliceBytes source ic.pointer (ic.pointer + m'.length)).map asciiLower = m')) := by
  obtain ⟨m', heq, hm⟩ := longestMatch_spec source ic options hne
  refine ⟨m', heq, ?_⟩
  rcases hm with hm | ⟨hmem, j, hj, hflat⟩
  · exact Or.inl hm
  · have hasciim : ∀ x ∈ (sliceBytes source ic.pointer (ic.pointer + j)).flatMap lowerRune,
        x < 128 := by
      rw [← hflat]
      exact fun x hx => hascii m' hmem x hx
    have hmap := flatMap_lowerRune_ascii _ hasciim
    have hslen : (sliceBytes source ic.pointer (ic.pointer + j)).length = j := by
      rw [slice_len source (by omega) hj]
      omega
    have hmlen : m'.length = j := by
      rw [hflat, ← hmap, List.length_map, hslen]
    refine Or.inr ⟨hmem, by omega, ?_⟩
    rw [hmlen, hmap, ← hflat]

/-! ## lexKeyword and lexSymbol -/

theorem keywordOptions_nonempty : ∀ o ∈ keywordOptions, o ≠ [] := by decide

theorem keywordOptions_ascii : ∀ o ∈ keywordOptions, ∀ b ∈ o, b < 128 := by decide

theorem symbolOptions_nonempty : ∀ o ∈ symbolOptions, o ≠ [] := by decide

theorem symbolOptions_ascii : ∀ o ∈ symbolOptions, ∀ b ∈ o, b < 128 := by decide

/-- `lexKeyword` master lemma: never panics, never exhausts fuel; on
success the token is a keyword `m` (the ASCII-lower-casing of the consumed
slice), pointer and column both advance by `len m` and the line is
untouched. -/
theorem lexKeyword_spec (source : List Nat) (ic : cursor) :
    lexKeyword source ic ≠ .panic_ ∧ lexKeyword source ic ≠ .fuelOut ∧
    ∀ tok c', lexKeyword source ic = .ok tok c' →
      ∃ m, m ≠ [] ∧ m ∈ keywordOptions ∧ tok = some ⟨m, .KeywordKind, ic.loc⟩ ∧
        c'.pointer = ic.pointer + m.length ∧ c'.pointer ≤ source.length ∧
        c'.loc.Line = ic.loc.Line ∧ c'.loc.Col = ic.loc.Col + m.length ∧
        (sliceBytes source ic.pointer c'.pointer).map asciiLower = m := by
  obtain ⟨m', heq, hm⟩ := longestMatch_ascii_spec source ic keywordOptions
    keywordOptions_nonempty keywordOptions_ascii
  rw [lexKeyword, heq]
  dsimp only
  by_cases hnil : m' = []
  · rw [if_pos hnil]
    refine ⟨by simp, by simp, ?_⟩
    intro tok c' h
    simp at h
  · rw [if_neg hnil]
    rcases hm with hm | ⟨hmem, hlen, hmap⟩
    · exact absurd hm hnil
    refine ⟨by simp, by simp, ?_⟩
    intro tok c' h
    rw [ScanOut.ok.injEq] at h
    obtain ⟨htok, hc⟩ := h
    subst hc
    exact ⟨m', hnil, hmem, htok.symm, rfl, hlen, rfl, rfl, hmap⟩

/-- `lexSymbol` master lemma: panics only when the cursor is at or past the
end of the source (the unguarded `source[ic.pointer]` read), never
exhausts fuel; on success either the consumed byte was whitespace (no
token; newline advances the line and resets the column, tab and space
advance the column) or the token is a symbol `m`, with pointer and column
advancing by `len m` and the line untouched. -/
theorem lexSymbol_spec (source : List Nat) (ic : cursor) :
    (ic.pointer < source.length → lexSymbol source ic ≠ .panic_) ∧
    lexSymbol source ic ≠ .fuelOut ∧
    ∀ tok c', lexSymbol source ic = .ok tok c' →
      ic.pointer < c'.pointer ∧ c'.pointer ≤ source.length ∧
      ((tok = none ∧ c'.pointer = ic.pointer + 1 ∧
        ((source.getD ic.pointer 0 = 10 ∧ c'.loc.Line = ic.loc.Line + 1 ∧ c'.loc.Col = 0) ∨
         ((source.getD ic.pointer 0 = 9 ∨ source.getD ic.pointer 0 = 32) ∧
           c'.loc.Line = ic.loc.Line ∧ c'.loc.Col = ic.loc.Col + 1))) ∨
       (∃ m, m ≠ [] ∧ m ∈ symbolOptions ∧ tok = some ⟨m, .SymbolKind, ic.loc⟩ ∧
         c'.pointer = ic.pointer + m.length ∧
         c'.loc.Line = ic.loc.Line ∧ c'.loc.Col = ic.loc.Col + m.length ∧
         (sliceBytes source ic.pointer c'.pointer).map asciiLower = m)) := by
  rw [lexSymbol]
  by_cases hg : ic.pointer < source.length
  · rw [dif_pos hg]
    dsimp only
    by_cases hnl : source.get ⟨ic.pointer, hg⟩ = 10
    · rw [if_pos hnl]
      refine ⟨fun _ => by simp, by simp, ?_⟩
      intro tok c' h
      rw [ScanOut.ok.injEq] at h
      obtain ⟨htok, hc⟩ := h
      subst hc
      refine ⟨by dsimp only; omega, by dsimp only; omega,
        Or.inl ⟨htok.symm, rfl, Or.inl ⟨?_, rfl, rfl⟩⟩⟩
      rw [getD_eq_get source hg, hnl]
    · rw [if_neg hnl]
      by_cases hws : source.get ⟨ic.pointer, hg⟩ = 9 ∨ source.get ⟨ic.pointer, hg⟩ = 32
      · rw [if_pos hws]
        refine ⟨fun _ => by simp, by simp, ?_⟩
        intro tok c' h
        rw [ScanOut.ok.injEq] at h
        obtain ⟨htok, hc⟩ := h
        subst hc
        refine ⟨by dsimp only; omega, by dsimp only; omega,
          Or.inl ⟨htok.symm, rfl, Or.inr ⟨?_, rfl, rfl⟩⟩⟩
        rw [getD_eq_get source hg]
        exact hws
      · rw [if_neg hws]
        obtain ⟨m', heq, hm⟩ := longestMatch_ascii_spec source ic symbolOptions
          symbolOptions_nonempty symbolOptions_ascii
        rw [heq]
        dsimp only
        by_cases hnil : m' = []
        · rw [if_pos hnil]
          refine ⟨fun _ => by simp, by simp, ?_⟩
          intro tok c' h
          simp at h
        · rw [if_neg hnil]
          rcases hm with hm | ⟨hmem, hlen, hmap⟩
          · exact absurd hm hnil
          refine ⟨fun _ => by simp, by simp, ?_⟩
          intro tok c' h
          rw [ScanOut.ok.injEq] at h
          obtain ⟨htok, hc⟩ := h
          subst hc
          have hpos : 0 < m'.length := List.length_pos.mpr hnil
          exact ⟨by dsimp only; omega, by dsimp only; omega,
            Or.inr ⟨m', hnil, hmem, htok.symm, rfl, rfl, rfl, hmap⟩⟩
  · rw [dif_neg hg]
    refine ⟨fun hlt => absurd hlt hg, by simp, ?_⟩
    intro tok c' h
    simp at h

/-! ## The driver: one scanning round and the loop -/

/-- One driver round under the loop guard: no panic, no fuel exhaustion,
and a success strictly advances the pointer within bounds, consuming either
one whitespace byte with no token or a nonempty lexeme related to the
produced token by `lexemeRel`. -/
theorem tryLexers_spec (source : List Nat) (cur : cursor) (hg : cur.pointer < source.length) :
    tryLexers source cur ≠ .panic_ ∧ tryLexers source cur ≠ .fuelOut ∧
    ∀ tok c', tryLexers source cur = .ok tok c' →
      cur.pointer < c'.pointer ∧ c'.pointer ≤ source.length ∧
      ((tok = none ∧ c'.pointer = cur.pointer + 1 ∧
        (source.getD cur.pointer 0 = 10 ∨ source.getD cur.pointer 0 = 9 ∨
         source.getD cur.pointer 0 = 32)) ∨
       (∃ t, tok = some t ∧ lexemeRel t (sliceBytes source cur.pointer c'.pointer) ∧
         sliceBytes source cur.pointer c'.pointer ≠ [])) := by
  obtain ⟨hkp, hkf, hkok⟩ := lexKeyword_spec source cur
  obtain ⟨hsp, hsf, hsok⟩ := lexSymbol_spec source cur
  obtain ⟨hdp, hdf, hdok⟩ := lexCharacterDelimited_spec source cur 39
  obtain ⟨hnp, hnf, hnok⟩ := lexNumeric_spec source cur
  obtain ⟨hip, hif, hiok⟩ := lexIdentifier_spec source cur
  rw [tryLexers]
  rcases hk : lexKeyword source cur with _ | _ | _ | ⟨tokk, curk⟩
  · exact absurd hk hkp
  · exact absurd hk hkf
  · -- keyword no match: try lexSymbol
    rcases hs : lexSymbol source cur with _ | _ | _ | ⟨toks, curs⟩
    · exact absurd hs (hsp hg)
    · exact absurd hs hsf
    · -- symbol no match: try lexString
      rcases hd : lexString source cur with _ | _ | _ | ⟨tokd, curd⟩
      · exact absurd hd (by rw [lexString] at hd ⊢; exact hdp (le_of_lt hg))
      · exact absurd hd (by rw [lexString] at hd ⊢; exact hdf)
      · -- string no match: try lexNumeric
        rcases hn : lexNumeric source cur with _ | _ | _ | ⟨tokn, curn⟩
        · exact absurd hn hnp
        · exact absurd hn hnf
        · -- numeric no match: lexIdentifier decides
          dsimp only
          refine ⟨hip hg, hif, ?_⟩
          intro tok c' h
          obtain ⟨hlt, hle, hline, hcol, t, htok, hloc, hcase⟩ := hiok tok c' h
          refine ⟨hlt, hle, Or.inr ⟨t, htok, ?_, ?_⟩⟩
          · rcases hcase with ⟨hkind, h34, hval, _⟩ | ⟨hkind, hval⟩
            · simp only [lexemeRel, hkind]
              right
              rw [slice_cons source hg hlt, ← getD_eq_get source hg, h34, hval]
            · simp only [lexemeRel, hkind]
              rw [hval]
          · rw [slice_cons source hg hlt]
            simp
        · -- lexNumeric matched
          dsimp only
          refine ⟨by simp, by simp, ?_⟩
          intro tok c' h
          rw [ScanOut.ok.injEq] at h
          obtain ⟨heq1, heq2⟩ := h
          subst heq1
          subst heq2
          obtain ⟨htok, hlt, hle, hline, _, _⟩ := hnok tokn curn hn
          subst htok
          refine ⟨hlt, hle, Or.inr ⟨_, rfl, ?_, ?_⟩⟩
          · simp only [lexemeRel]
          · have hsll := slice_len source (le_of_lt hlt) hle
            intro hsl
            rw [hsl] at hsll
            simp at hsll
            omega
      · -- lexString matched
        dsimp only
        obtain ⟨hic, hd39, htok, hlt, hlt', hline, hcol⟩ := hdok tokd curd
          (by rw [lexString] at hd; exact hd)
        refine ⟨by simp, by simp, ?_⟩
        intro tok c' h
        rw [ScanOut.ok.injEq] at h
        obtain ⟨heq1, heq2⟩ := h
        subst heq1
        subst heq2
        subst htok
        refine ⟨hlt, by omega, Or.inr ⟨_, rfl, ?_, ?_⟩⟩
        · simp only [lexemeRel]
          left
          rw [slice_cons source hg hlt, ← getD_eq_get source hg, hd39]
        · rw [slice_cons source hg hlt]
          simp
    · -- lexSymbol matched
      dsimp only
      refine ⟨by simp, by simp, ?_⟩
      intro tok c' h
      rw [ScanOut.ok.injEq] at h
      obtain ⟨heq1, heq2⟩ := h
      subst heq1
      subst heq2
      obtain ⟨hlt, hle, hcase⟩ := hsok toks curs hs
      refine ⟨hlt, hle, ?_⟩
      rcases hcase with ⟨htok, hone, hws⟩ | ⟨m, hnil, hmem, htok, hptr, hline, hcol, hmap⟩
      · exact Or.inl ⟨htok, hone, by tauto⟩
      · subst htok
        refine Or.inr ⟨_, rfl, ?_, ?_⟩
        · simp only [lexemeRel]
          exact hmap
        · intro hsl
          rw [hsl] at hmap
          simp at hmap
          exact hnil hmap
  · -- lexKeyword matched
    dsimp only
    refine ⟨by simp, by simp, ?_⟩
    intro tok c' h
    rw [ScanOut.ok.injEq] at h
    obtain ⟨heq1, heq2⟩ := h
    subst heq1
    subst heq2
    obtain ⟨m, hnil, hmem, htok, hptr, hle, hline, hcol, hmap⟩ := hkok tokk curk hk
    subst htok
    have hpos : 0 < m.length := List.length_pos.mpr hnil
    refine ⟨by omega, hle, Or.inr ⟨_, rfl, ?_, ?_⟩⟩
    · simp only [lexemeRel]
      exact hmap
    · intro hsl
      rw [hsl] at hmap
      simp at hmap
      exact hnil hmap

/-- The `lex` loop invariant: under the loop guard bookkeeping the loop
never panics and never exhausts its fuel, and when it returns a token list
that list extends the accumulator with tokens whose lexemes, interleaved
with the consumed whitespace bytes, decompose the remaining source
exactly (`Decomp`). -/
theorem lexLoop_spec (source : List Nat) :
    ∀ (fuel : Nat) (cur : cursor) (tokens : List Token),
      cur.pointer ≤ source.length →
      source.length < fuel + cur.pointer →
      lexLoop source fuel cur tokens ≠ .panic_ ∧
      lexLoop source fuel cur tokens ≠ .fuelOut ∧
      ∀ toks, lexLoop source fuel cur tokens = .ok toks →
        ∃ rest, toks = tokens ++ rest ∧ Decomp (source.drop cur.pointer) rest := by
  intro fuel
  induction fuel with
  | zero => intro cur tokens h1 h2; omega
  | succ fuel ih =>
    intro cur tokens h1 h2
    rw [lexLoop]
    by_cases hg : cur.pointer < source.length
    · rw [if_pos hg]
      obtain ⟨htp, htf, htok⟩ := tryLexers_spec source cur hg
      rcases ht : tryLexers source cur with _ | _ | _ | ⟨tok, newCursor⟩
      · exact absurd ht htp
      · exact absurd ht htf
      · dsimp only
        refine ⟨by simp, by simp, ?_⟩
        intro toks h
        simp at h
      · dsimp only
        obtain ⟨hlt, hle, hcase⟩ := htok tok newCursor ht
        rcases hcase with ⟨htnone, hone, hws⟩ | ⟨t, htsome, hrel, hne⟩
        · subst htnone
          dsimp only
          obtain ⟨hp, hf, hok⟩ := ih newCursor (tokens ++ []) hle (by omega)
          refine ⟨hp, hf, ?_⟩
          intro toks h
          obtain ⟨rest, hrest, hdec⟩ := hok toks h
          refine ⟨rest, by simpa using hrest, ?_⟩
          have hdrop : source.drop cur.pointer =
              source.get ⟨cur.pointer, hg⟩ :: source.drop (cur.pointer + 1) := by
            have := List.drop_eq_getElem_cons (l := source) hg
            exact this
          rw [hdrop]
          have hb : source.get ⟨cur.pointer, hg⟩ = 10 ∨ source.get ⟨cur.pointer, hg⟩ = 9 ∨
              source.get ⟨cur.pointer, hg⟩ = 32 := by
            rw [← getD_eq_get source hg]
            exact hws
          rw [← hone]
          exact Decomp.ws hb hdec
        · subst htsome
          dsimp only
          obtain ⟨hp, hf, hok⟩ := ih newCursor (tokens ++ [t]) hle (by omega)
          refine ⟨hp, hf, ?_⟩
          intro toks h
          obtain ⟨rest, hrest, hdec⟩ := hok toks h
          refine ⟨t :: rest, by simpa using hrest, ?_⟩
          rw [drop_eq_slice_append source (le_of_lt hlt) hle]
          exact Decomp.tok hrel hne hdec
    · rw [if_neg hg]
      refine ⟨by simp, by simp, ?_⟩
      intro toks h
      rw [LexOut.ok.injEq] at h
      subst h
      refine ⟨[], by simp, ?_⟩
      have : source.drop cur.pointer = [] := List.drop_eq_nil_of_le (by omega)
      rw [this]
      exact Decomp.nil

/-- The `lex` loop's error characterization: whenever the loop returns an
error there is a failure cursor, reached from the entry cursor and still
strictly inside the source, at which one whole scanner round returns no
match; the slice consumed between entry and failure decomposes into the
tokens produced on the way (`Decomp`), and the error is built from exactly
those tokens' last value and the failure cursor's tracked location. -/
theorem lexLoop_err_spec (source : List Nat) :
    ∀ (fuel : Nat) (cur : cursor) (tokens : List Token),
      cur.pointer ≤ source.length →
      source.length < fuel + cur.pointer →
      ∀ e, lexLoop source fuel cur tokens = .err e →
        ∃ (cur' : cursor) (rest : List Token),
          cur.pointer ≤ cur'.pointer ∧ cur'.pointer < source.length ∧
          tryLexers source cur' = .noMatch ∧
          Decomp (sliceBytes source cur.pointer cur'.pointer) rest ∧
          e = ⟨((tokens ++ rest).getLast?).map Token.Value,
               cur'.loc.Line, cur'.loc.Col⟩ := by
  intro fuel
  induction fuel with
  | zero => intro cur tokens h1 h2; omega
  | succ fuel ih =>
    intro cur tokens h1 h2 e he
    rw [lexLoop] at he
    by_cases hg : cur.pointer < source.length
    · rw [if_pos hg] at he
      obtain ⟨htp, htf, htok⟩ := tryLexers_spec source cur hg
      rcases ht : tryLexers source cur with _ | _ | _ | ⟨tok, newCursor⟩
      · exact absurd ht htp
      · exact absurd ht htf
      · rw [ht] at he
        dsimp only at he
        rw [LexOut.err.injEq] at he
        refine ⟨cur, [], le_refl _, hg, ht, ?_, ?_⟩
        · rw [slice_nil]
          exact Decomp.nil
        · rw [← he]
          simp
      · rw [ht] at he
        dsimp only at he
        obtain ⟨hlt, hle, hcase⟩ := htok tok newCursor ht
        rcases hcase with ⟨htnone, hone, hws⟩ | ⟨t, htsome, hrel, hne⟩
        · subst htnone
          dsimp only at he
          obtain ⟨cur', rest', hle', hlt', htry', hdec', he'⟩ :=
            ih newCursor (tokens ++ []) hle (by omega) e he
          refine ⟨cur', rest', by omega, hlt', htry', ?_, ?_⟩
          · have hs1 : sliceBytes source cur.pointer cur'.pointer =
                source.get ⟨cur.pointer, hg⟩ :: sliceBytes source (cur.pointer + 1) cur'.pointer :=
              slice_cons source hg (by omega)
            rw [hs1]
            have hb : source.get ⟨cur.pointer, hg⟩ = 10 ∨ source.get ⟨cur.pointer, hg⟩ = 9 ∨
                source.get ⟨cur.pointer, hg⟩ = 32 := by
              rw [← getD_eq_get source hg]
              exact hws
            rw [← hone]
            exact Decomp.ws hb hdec'
          · rw [he']
            simp
        · subst htsome
          dsimp only at he
          obtain ⟨cur', rest', hle', hlt', htry', hdec', he'⟩ :=
            ih newCursor (tokens ++ [t]) hle (by omega) e he
          refine ⟨cur', t :: rest', by omega, hlt', htry', ?_, ?_⟩
          · rw [slice_append source (le_of_lt hlt) hle' (le_of_lt hlt')]
            exact Decomp.tok hrel hne hdec'
          · rw [he']
            simp
    · rw [if_neg hg] at he
      simp at he

end GoSQL

namespace GoSQL

/-! ## Claim theorems (concrete) -/

/-- C1 (code bug): on the input `'it''s'` (bytes 39,105,116,39,39,115,39)
the claim says `lex` succeeds with one `String` token of value `it's`.
The code instead: the delimited scan appends BOTH bytes of the doubled
delimiter to the value (yielding `it''s` = 105,116,39,39,115) and returns
with the cursor still pointing at the closing quote (pointer 6), so the
driver finds no scanner that matches there and the whole pass errors with
hint `it''s` at line 0 column 6. -/
theorem C1_doubled_quote_escape :
    lex [39, 105, 116, 39, 39, 115, 39] = .err ⟨some [105, 116, 39, 39, 115], 0, 6⟩ ∧
    lexString [39, 105, 116, 39, 39, 115, 39] cursor0 =
      .ok (some ⟨[105, 116, 39, 39, 115], .StringKind, ⟨0, 0⟩⟩) ⟨6, ⟨0, 6⟩⟩ := by
  decide

/-- C2 (code bug): on the input `"Foo"` (bytes 34,70,111,111,34) the claim
says `lex` succeeds with one `Identifier` token `Foo` (the delimited scan
relabelled).  The code has no relabelling step — `lexIdentifier` returns
the delimited-scan token still of `String` kind — and the scan leaves the
cursor on the closing quote (pointer 4), so `lex` errors with hint `Foo`
at line 0 column 4. -/
theorem C2_quoted_identifier :
    lex [34, 70, 111, 111, 34] = .err ⟨some [70, 111, 111], 0, 4⟩ ∧
    lexIdentifier [34, 70, 111, 111, 34] cursor0 =
      .ok (some ⟨[70, 111, 111], .StringKind, ⟨0, 0⟩⟩) ⟨4, ⟨0, 4⟩⟩ := by
  decide

/-- C3 (counterexample): lexing the one-byte source `A` (byte 65, no
whitespace) succeeds with a single token whose value is `a` (byte 97, bare
identifiers are lower-cased), so the concatenation of the token values —
there is no whitespace to reinsert — is `a`, which does not reproduce the
source `A`. -/
theorem C3_counterexample :
    lex [65] = .ok [⟨[97], .IdentifierKind, ⟨0, 0⟩⟩] ∧
    ([(⟨[97], .IdentifierKind, ⟨0, 0⟩⟩ : Token)].map Token.Value).flatten ≠ [65] := by
  decide

/-- C4: lexing the bare text `into` (bytes 105,110,116,111) yields exactly
one `Keyword` token with value `into`; and in `longestMatch`, an exact
match (`int`) is recorded but scanning continues, so the longer candidate
`into` sharing the prefix wins even when both are offered. -/
theorem C4_longest_match_into :
    lex [105, 110, 116, 111] = .ok [⟨IntoKeyword, .KeywordKind, ⟨0, 0⟩⟩] ∧
    longestMatch [105, 110, 116, 111] cursor0 [IntKeyword, IntoKeyword] =
      .found IntoKeyword := by
  decide

/-- C5: the numeric scanner follows the specified state machine:
`1.5e-10` lexes as one `Numeric` token with that exact value; `1.2.3`
(second period) and `1e` (exponent marker last) yield no match; a sign is
consumed only immediately after the exponent marker (`1e+2` consumes the
sign, `1e2+3` stops before the `+`). -/
theorem C5_numeric_state_machine :
    lex [49, 46, 53, 101, 45, 49, 48] =
      .ok [⟨[49, 46, 53, 101, 45, 49, 48], .NumericKind, ⟨0, 0⟩⟩] ∧
    lexNumeric [49, 46, 50, 46, 51] cursor0 = .noMatch ∧
    lexNumeric [49, 101] cursor0 = .noMatch ∧
    lexNumeric [49, 101, 43, 50] cursor0 =
      .ok (some ⟨[49, 101, 43, 50], .NumericKind, ⟨0, 0⟩⟩) ⟨4, ⟨0, 4⟩⟩ ∧
    lexNumeric [49, 101, 50, 43, 51] cursor0 =
      .ok (some ⟨[49, 101, 50], .NumericKind, ⟨0, 0⟩⟩) ⟨3, ⟨0, 4⟩⟩ := by
  decide

/-- C6: lexing `'abc` (bytes 39,97,98,99, an unterminated string) fails:
the delimited scan returns no match, every other scanner also fails at the
opening quote, and the error carries the (line, column) of the opening
quote byte — (0, 0), not the end-of-input column 4 — with no token
produced (hint `none`). -/
theorem C6_unterminated_string :
    lex [39, 97, 98, 99] = .err ⟨none, 0, 0⟩ ∧
    lexString [39, 97, 98, 99] cursor0 = .noMatch := by
  decide

/-- C7 (counterexample): lexing `@` (byte 64) fails at the first byte,
which lies on the first line of the input; the error reports line 0, not
the 1-based line number 1 the claim requires. -/
theorem C7_counterexample :
    lex [64] = .err ⟨none, 0, 0⟩ ∧
    (⟨none, 0, 0⟩ : LexError).line ≠ 1 := by
  decide

/-- C7 (amended): whenever `lex` fails, the failure happens at a cursor
strictly inside the source — the first unconsumed byte — at which every
scanner returns no match; the consumed prefix up to that cursor
decomposes into the tokens already produced; and the error carries
exactly that cursor's tracked 0-based line and 0-based column, together
with the value of the immediately preceding token (no hint when no token
was produced).  The tracked location starts at line 0, not the 1-based
line the claim states, and can drift from the true position of the first
unconsumed byte (one column high right after a numeric token ended by a
non-digit, and unadjusted for newline bytes consumed inside a delimited
value). -/
theorem C7_error_location :
    ∀ (source : List Nat) (e : LexError), lex source = .err e →
      ∃ (cur : cursor) (tokens : List Token),
        cur.pointer < source.length ∧
        tryLexers source cur = .noMatch ∧
        Decomp (sliceBytes source 0 cur.pointer) tokens ∧
        e.line = cur.loc.Line ∧ e.col = cur.loc.Col ∧
        e.hint = (tokens.getLast?).map Token.Value := by
  intro source e h
  rw [lex] at h
  obtain ⟨cur', rest, _, hlt, htry, hdec, he⟩ :=
    lexLoop_err_spec source (source.length + 1) ⟨0, ⟨0, 0⟩⟩ []
      (by dsimp only; omega) (by dsimp only; omega) e h
  subst he
  exact ⟨cur', rest, hlt, htry, by simpa using hdec, rfl, rfl, by simp⟩

/-- Witness for C7: the theorem applied at the failing input `select @`
(bytes 115,101,108,101,99,116,32,64), whose error is hint `select`,
line 0, column 7. -/
theorem C7_error_location_witness :
    ∃ (cur : cursor) (tokens : List Token),
      cur.pointer < ([115, 101, 108, 101, 99, 116, 32, 64] : List Nat).length ∧
      tryLexers [115, 101, 108, 101, 99, 116, 32, 64] cur = .noMatch ∧
      Decomp (sliceBytes [115, 101, 108, 101, 99, 116, 32, 64] 0 cur.pointer) tokens ∧
      (⟨some SelectKeyword, 0, 7⟩ : LexError).line = cur.loc.Line ∧
      (⟨some SelectKeyword, 0, 7⟩ : LexError).col = cur.loc.Col ∧
      (⟨some SelectKeyword, 0, 7⟩ : LexError).hint = (tokens.getLast?).map Token.Value :=
  C7_error_location [115, 101, 108, 101, 99, 116, 32, 64]
    ⟨some SelectKeyword, 0, 7⟩ (by decide)

/-- C8 (counterexample): `lexNumeric` on `1+` (bytes 49,43) succeeds
consuming one byte (pointer 0 → 1) but returns column 2, not starting
column plus consumed characters (0 + 1): the loop increments the column
for the terminating `+` it examines without consuming. -/
theorem C8_counterexample :
    lexNumeric [49, 43] cursor0 = .ok (some ⟨[49], .NumericKind, ⟨0, 0⟩⟩) ⟨1, ⟨0, 2⟩⟩ ∧
    ((⟨1, ⟨0, 2⟩⟩ : cursor).loc.Col ≠ cursor0.loc.Col + (1 - cursor0.pointer)) := by
  decide

/-- C3 (amended): for every input that `lex` accepts, the source
decomposes, in order, into single whitespace bytes (contributing no token)
and one lexeme per token, with the token's value related to its lexeme by
`lexemeRel`: a `Numeric` value is the lexeme verbatim, `Keyword`, `Symbol`
and bare `Identifier` values are the ASCII-lower-cased lexeme, and a
`String`-kind value is the lexeme minus its opening delimiter.  So
reinserting the whitespace reconstructs the source only up to case folding
and opening delimiters, not exactly. -/
theorem C3_reconstruction (source : List Nat) (toks : List Token)
    (h : lex source = .ok toks) : Decomp source toks := by
  rw [lex] at h
  obtain ⟨_, _, hok⟩ := lexLoop_spec source (source.length + 1) ⟨0, ⟨0, 0⟩⟩ []
    (by dsimp only; omega) (by dsimp only; omega)
  obtain ⟨rest, hrest, hdec⟩ := hok toks h
  rw [hrest, List.nil_append]
  simpa using hdec

/-- Witness for C3: the decomposition at the accepted input `select 1`. -/
theorem C3_reconstruction_witness :
    Decomp [115, 101, 108, 101, 99, 116, 32, 49]
      [⟨SelectKeyword, .KeywordKind, ⟨0, 0⟩⟩, ⟨[49], .NumericKind, ⟨0, 7⟩⟩] :=
  C3_reconstruction [115, 101, 108, 101, 99, 116, 32, 49]
    [⟨SelectKeyword, .KeywordKind, ⟨0, 0⟩⟩, ⟨[49], .NumericKind, ⟨0, 7⟩⟩] (by decide)

/-- C8 (amended): every scanner that succeeds advances the pointer by
exactly the consumed bytes (in this model `pointer` is the byte offset, so
the advance is the pointer difference); `lexCharacterDelimited`,
`lexKeyword` and `lexIdentifier` advance the column by exactly the pointer
advance and never touch the line; `lexSymbol` either consumes one
whitespace byte — a newline increments the line and resets the column, tab
and space advance the column by one — or advances column and pointer
alike; `lexNumeric` advances the column by the pointer advance plus one
extra exactly when it stopped at an unconsumed non-digit (returned pointer
still inside the source). -/
theorem C8_cursor_advance :
    (∀ (source : List Nat) (ic : cursor) (d : Nat) (tok : Option Token) (c' : cursor),
      lexCharacterDelimited source ic d = .ok tok c' →
      ic.pointer < c'.pointer ∧ c'.loc.Line = ic.loc.Line ∧
      c'.loc.Col = ic.loc.Col + (c'.pointer - ic.pointer)) ∧
    (∀ (source : List Nat) (ic : cursor) (tok : Option Token) (c' : cursor),
      lexNumeric source ic = .ok tok c' →
      ic.pointer < c'.pointer ∧ c'.loc.Line = ic.loc.Line ∧
      (c'.pointer = source.length → c'.loc.Col = ic.loc.Col + (c'.pointer - ic.pointer)) ∧
      (c'.pointer < source.length →
        c'.loc.Col = ic.loc.Col + (c'.pointer - ic.pointer) + 1)) ∧
    (∀ (source : List Nat) (ic : cursor) (tok : Option Token) (c' : cursor),
      lexKeyword source ic = .ok tok c' →
      ic.pointer < c'.pointer ∧ c'.loc.Line = ic.loc.Line ∧
      c'.loc.Col = ic.loc.Col + (c'.pointer - ic.pointer)) ∧
    (∀ (source : List Nat) (ic : cursor) (tok : Option Token) (c' : cursor),
      lexSymbol source ic = .ok tok c' →
      (tok = none ∧ c'.pointer = ic.pointer + 1 ∧
        ((source.getD ic.pointer 0 = 10 ∧ c'.loc.Line = ic.loc.Line + 1 ∧ c'.loc.Col = 0) ∨
         (source.getD ic.pointer 0 ≠ 10 ∧ c'.loc.Line = ic.loc.Line ∧
          c'.loc.Col = ic.loc.Col + 1))) ∨
      (tok ≠ none ∧ ic.pointer < c'.pointer ∧ c'.loc.Line = ic.loc.Line ∧
        c'.loc.Col = ic.loc.Col + (c'.pointer - ic.pointer))) ∧
    (∀ (source : List Nat) (ic : cursor) (tok : Option Token) (c' : cursor),
      lexIdentifier source ic = .ok tok c' →
      ic.pointer < c'.pointer ∧ c'.loc.Line = ic.loc.Line ∧
      c'.loc.Col = ic.loc.Col + (c'.pointer - ic.pointer)) := by
  refine ⟨?_, ?_, ?_, ?_, ?_⟩
  · intro source ic d tok c' h
    obtain ⟨_, _, _, hlt, _, hline, hcol⟩ := (lexCharacterDelimited_spec source ic d).2.2 tok c' h
    exact ⟨hlt, hline, hcol⟩
  · intro source ic tok c' h
    obtain ⟨_, hlt, _, hline, hcol1, hcol2⟩ := (lexNumeric_spec source ic).2.2 tok c' h
    exact ⟨hlt, hline, hcol1, hcol2⟩
  · intro source ic tok c' h
    obtain ⟨m, hnil, _, _, hptr, _, hline, hcol, _⟩ := (lexKeyword_spec source ic).2.2 tok c' h
    have := List.length_pos.mpr hnil
    refine ⟨by omega, hline, by omega⟩
  · intro source ic tok c' h
    obtain ⟨hlt, _, hcase⟩ := (lexSymbol_spec source ic).2.2 tok c' h
    rcases hcase with ⟨htok, hone, hws⟩ | ⟨m, hnil, _, htok, hptr, hline, hcol, _⟩
    · refine Or.inl ⟨htok, hone, ?_⟩
      rcases hws with ⟨hb, hl, hc⟩ | ⟨hb, hl, hc⟩
      · exact Or.inl ⟨hb, hl, hc⟩
      · exact Or.inr ⟨by omega, hl, hc⟩
    · refine Or.inr ⟨by rw [htok]; simp, hlt, hline, by omega⟩
  · intro source ic tok c' h
    obtain ⟨hlt, _, hline, hcol, _⟩ := (lexIdentifier_spec source ic).2.2 tok c' h
    exact ⟨hlt, hline, hcol⟩

/-- Witness for C8: the `lexNumeric` clause applied at the input `1+`
(bytes 49,43) from the zero cursor, where the scan stops at the `+`. -/
theorem C8_cursor_advance_witness :
    cursor0.pointer < (⟨1, ⟨0, 2⟩⟩ : cursor).pointer ∧
    (⟨1, ⟨0, 2⟩⟩ : cursor).loc.Line = cursor0.loc.Line ∧
    ((⟨1, ⟨0, 2⟩⟩ : cursor).pointer = ([49, 43] : List Nat).length →
      (⟨1, ⟨0, 2⟩⟩ : cursor).loc.Col =
        cursor0.loc.Col + ((⟨1, ⟨0, 2⟩⟩ : cursor).pointer - cursor0.pointer)) ∧
    ((⟨1, ⟨0, 2⟩⟩ : cursor).pointer < ([49, 43] : List Nat).length →
      (⟨1, ⟨0, 2⟩⟩ : cursor).loc.Col =
        cursor0.loc.Col + ((⟨1, ⟨0, 2⟩⟩ : cursor).pointer - cursor0.pointer) + 1) :=
  C8_cursor_advance.2.1 [49, 43] cursor0 (some ⟨[49], .NumericKind, ⟨0, 0⟩⟩)
    ⟨1, ⟨0, 2⟩⟩ (by decide)

/-- C9: every scanner strictly advances the cursor pointer whenever it
reports success — including the whitespace path of `lexSymbol`, which
yields no token but still consumes one byte — so the driver's pointer is
monotonically non-decreasing over a pass and strictly increases at every
successful scanner application, and the `lex` loop terminates on every
finite input: with fuel `length + 1` the loop never runs out. -/
theorem C9_strict_advance :
    (∀ (source : List Nat) (cur : cursor) (tok : Option Token) (c' : cursor),
      lexKeyword source cur = .ok tok c' → cur.pointer < c'.pointer) ∧
    (∀ (source : List Nat) (cur : cursor) (tok : Option Token) (c' : cursor),
      lexSymbol source cur = .ok tok c' → cur.pointer < c'.pointer) ∧
    (∀ (source : List Nat) (cur : cursor) (tok : Option Token) (c' : cursor),
      lexString source cur = .ok tok c' → cur.pointer < c'.pointer) ∧
    (∀ (source : List Nat) (cur : cursor) (tok : Option Token) (c' : cursor),
      lexNumeric source cur = .ok tok c' → cur.pointer < c'.pointer) ∧
    (∀ (source : List Nat) (cur : cursor) (tok : Option Token) (c' : cursor),
      lexIdentifier source cur = .ok tok c' → cur.pointer < c'.pointer) ∧
    (∀ source : List Nat, lex source ≠ .fuelOut) := by
  refine ⟨?_, ?_, ?_, ?_, ?_, ?_⟩
  · intro source cur tok c' h
    obtain ⟨m, hnil, _, _, hptr, _⟩ := (lexKeyword_spec source cur).2.2 tok c' h
    have := List.length_pos.mpr hnil
    omega
  · intro source cur tok c' h
    exact ((lexSymbol_spec source cur).2.2 tok c' h).1
  · intro source cur tok c' h
    rw [lexString] at h
    exact ((lexCharacterDelimited_spec source cur 39).2.2 tok c' h).2.2.2.1
  · intro source cur tok c' h
    exact ((lexNumeric_spec source cur).2.2 tok c' h).2.1
  · intro source cur tok c' h
    exact ((lexIdentifier_spec source cur).2.2 tok c' h).1
  · intro source
    rw [lex]
    exact (lexLoop_spec source (source.length + 1) ⟨0, ⟨0, 0⟩⟩ []
      (by dsimp only; omega) (by dsimp only; omega)).2.1

/-- Witness for C9: the `lexKeyword` clause applied at the input `into`
from the zero cursor. -/
theorem C9_strict_advance_witness :
    cursor0.pointer < (⟨4, ⟨0, 4⟩⟩ : cursor).pointer :=
  C9_strict_advance.1 [105, 110, 116, 111] cursor0
    (some ⟨IntoKeyword, .KeywordKind, ⟨0, 0⟩⟩) ⟨4, ⟨0, 4⟩⟩ (by decide)

/-- C10: with the cursor strictly inside the source — the precondition the
driver's loop guard establishes — no scanner panics: the unguarded byte
reads of `lexSymbol` and `lexIdentifier` are in range, and in
`longestMatch` (with either active option set) every candidate is skipped
no later than the step at which the buffer would pass its length, so the
prefix slice `option[:cur.pointer-ic.pointer]` never exceeds the option's
bounds; consequently a whole `lex` pass never panics. -/
theorem C10_in_bounds :
    (∀ (source : List Nat) (cur : cursor), cur.pointer < source.length →
      lexKeyword source cur ≠ .panic_ ∧ lexSymbol source cur ≠ .panic_ ∧
      lexString source cur ≠ .panic_ ∧ lexNumeric source cur ≠ .panic_ ∧
      lexIdentifier source cur ≠ .panic_ ∧
      longestMatch source cur keywordOptions ≠ .panic_ ∧
      longestMatch source cur symbolOptions ≠ .panic_) ∧
    (∀ source : List Nat, lex source ≠ .panic_) := by
  constructor
  · intro source cur hg
    obtain ⟨mk, hmk, _⟩ := longestMatch_spec source cur keywordOptions keywordOptions_nonempty
    obtain ⟨ms, hms, _⟩ := longestMatch_spec source cur symbolOptions symbolOptions_nonempty
    refine ⟨(lexKeyword_spec source cur).1, (lexSymbol_spec source cur).1 hg,
      ?_, (lexNumeric_spec source cur).1, (lexIdentifier_spec source cur).1 hg,
      by rw [hmk]; simp, by rw [hms]; simp⟩
    rw [lexString]
    exact (lexCharacterDelimited_spec source cur 39).1 (le_of_lt hg)
  · intro source
    rw [lex]
    exact (lexLoop_spec source (source.length + 1) ⟨0, ⟨0, 0⟩⟩ []
      (by dsimp only; omega) (by dsimp only; omega)).1

/-- Witness for C10: the per-scanner clause at the input `into` from the
zero cursor, and the driver clause at the same input. -/
theorem C10_in_bounds_witness :
    (lexKeyword [105, 110, 116, 111] cursor0 ≠ .panic_ ∧
     lexSymbol [105, 110, 116, 111] cursor0 ≠ .panic_ ∧
     lexString [105, 110, 116, 111] cursor0 ≠ .panic_ ∧
     lexNumeric [105, 110, 116, 111] cursor0 ≠ .panic_ ∧
     lexIdentifier [105, 110, 116, 111] cursor0 ≠ .panic_ ∧
     longestMatch [105, 110, 116, 111] cursor0 keywordOptions ≠ .panic_ ∧
     longestMatch [105, 110, 116, 111] cursor0 symbolOptions ≠ .panic_) ∧
    lex [105, 110, 116, 111] ≠ .panic_ :=
  ⟨C10_in_bounds.1 [105, 110, 116, 111] cursor0 (by decide),
   C10_in_bounds.2 [105, 110, 116, 111]⟩

end GoSQL
